import Mathlib

/-!
Shallow embedding of `vllm/v1/engine/logprobs.py` (class `LogprobsProcessor`).

Conventions of the embedding:
* Python floats are modelled as `ℚ` (the spec's properties are stated "with
  exact arithmetic").
* Token ids and ranks are `ℤ`; counts/sizes read from the configuration are `ℤ`.
* Fallible code paths (failed `assert`, `IndexError` from `logprobs[0]` or
  `deque.popleft()` on empty data, `ValueError` from `deque(maxlen<0)`) are
  modelled as `none` of an `Option` result.
* The tokenizer is an opaque decode capability `ℤ → String`; the external
  helper `convert_ids_list_to_tokens` is order-preserving, length-preserving
  `List.map` (its interface contract).
* Python `dict` insertion with overwrite-on-duplicate is modelled by keeping
  the full insertion sequence (`PositionRecord`) together with the lookup
  function `dictGet`, a left fold in which a later insertion shadows an
  earlier one — exactly the `dict`-comprehension semantics the code relies on.
* `deque(maxlen=W)` is modelled as a plain list; the code only appends when
  the length is strictly below `W` or right after popping one element, so the
  implicit auto-eviction of `deque` never fires for `W ≥ 1`, and for `W = 0`
  the first confidence update hits `popleft` of an empty deque (`none` here,
  `IndexError` in Python).
-/

namespace VllmLogprobs

/-- `vllm.sequence.Logprob`: one token's logprob info at a position. -/
structure Logprob where
  logprob : ℚ
  rank : ℤ
  decoded_token : Option String
deriving DecidableEq

/-- A Python `dict[int, Logprob]` recorded as its insertion sequence. -/
abbrev PositionRecord := List (ℤ × Logprob)

/-- One insertion into a Python dict: a later write shadows an earlier one. -/
def dictStep (f : ℤ → Option Logprob) (kv : ℤ × Logprob) : ℤ → Option Logprob :=
  fun q => if q = kv.1 then some kv.2 else f q

/-- Lookup in the dict built by inserting the entries of `d` in order. -/
def dictGet (d : PositionRecord) (q : ℤ) : Option Logprob :=
  (d.foldl dictStep (fun _ => none)) q

/-- The `decoded_tokens` argument of `_make_logprob_dict`: either the infinite
`NONES = itertools.repeat(None)` stream or a finite list of decoded strings. -/
inductive DecodedSeq where
  | nones : DecodedSeq
  | ofList : List String → DecodedSeq
deriving DecidableEq

/-- `convert_ids_list_to_tokens` (external helper): bulk decode, one string per
id, order preserving. -/
def convert_ids_list_to_tokens (tok : ℤ → String) (ids : List ℤ) : List String :=
  ids.map tok

/-- The `zip(logprob_token_ids, logprobs, ranks, decoded_tokens)` of
`_make_logprob_dict`: truncating to the shortest sequence, where a
`DecodedSeq.nones` stream never truncates. -/
def zipEntries : List ℤ → List ℚ → List ℤ → DecodedSeq → PositionRecord
  | tid :: tids, lp :: lps, r :: rs, DecodedSeq.nones =>
      (tid, ⟨lp, r, none⟩) :: zipEntries tids lps rs DecodedSeq.nones
  | tid :: tids, lp :: lps, r :: rs, DecodedSeq.ofList (d :: ds) =>
      (tid, ⟨lp, r, some d⟩) :: zipEntries tids lps rs (DecodedSeq.ofList ds)
  | _, _, _, _ => []

/-- The `topk_ranks = range(1, num_logprobs + 1)` sequence of
`_make_logprob_dict`; empty when `k ≤ 0`. -/
def topkRanks (k : ℤ) : List ℤ :=
  (List.range k.toNat).map (fun (i : ℕ) => (i : ℤ) + 1)

/-- `LogprobsProcessor._make_logprob_dict` (lines 203-240): the virtual rank
sequence is the distinguished token's rank followed by `1..k`; the sentinel
`num_logprobs == -1` means "use however many logprobs were supplied". -/
def makeLogprobDict (lps : List ℚ) (tids : List ℤ) (dec : DecodedSeq)
    (rank : ℤ) (n : ℤ) : PositionRecord :=
  let k : ℤ := if n = -1 then (lps.length : ℤ) else n
  zipEntries tids lps (rank :: topkRanks k) dec

/-- `vllm.v1.outputs.LogprobsLists`: per-step sample logprob batch. -/
structure LogprobsLists where
  logprob_token_ids : List (List ℤ)
  logprobs : List (List ℚ)
  sampled_token_ranks : List ℤ

/-- `vllm.v1.outputs.LogprobsTensors`: prompt-chunk batch; the tensors are
`num_prompt_tokens × num_logprobs` shaped, modelled as lists of rows. -/
structure LogprobsTensors where
  logprob_token_ids : List (List ℤ)
  logprobs : List (List ℚ)
  selected_token_ranks : List ℤ

/-- The `extra_args` mapping read by `from_new_request`; `none` fields mean
the key is absent and `.get`'s default applies. -/
structure ExtraArgs where
  enable_conf : Bool
  window_size : Option ℤ
  threshold : Option ℚ

/-- The slice of `SamplingParams` that `from_new_request` reads. -/
structure SamplingParams where
  logprobs : Option ℤ
  prompt_logprobs : Option ℤ
  extra_args : Option ExtraArgs

/-- The slice of `EngineCoreRequest` that `from_new_request` reads. -/
structure EngineCoreRequest where
  sampling_params : Option SamplingParams

/-- The state of one `LogprobsProcessor` instance (the dataclass fields). -/
structure LogprobsProcessor where
  conf_grouped : ℚ
  conf_list : Option (List ℚ)
  conf_group_list : Option (List ℚ)
  conf_group_size : ℤ
  conf_threshold : Option ℚ
  tokenizer : Option (ℤ → String)
  logprobs : Option (List PositionRecord)
  prompt_logprobs : Option (List (Option PositionRecord))
  cumulative_logprob : Option ℚ
  num_logprobs : Option ℤ
  num_prompt_logprobs : Option ℤ

/-- The confidence-related fields computed by `from_new_request`
(lines 53-66). -/
structure ConfCfg where
  conf_group_size : ℤ
  conf_list : Option (List ℚ)
  conf_group_list : Option (List ℚ)
  conf_threshold : Option ℚ

/-- Lines 53-66 of `from_new_request`: the confidence configuration.
`deque(maxlen=w)` with `w < 0` raises `ValueError`, modelled as `none`. -/
def confFields : Option ExtraArgs → Option ConfCfg
  | some ea =>
      if ea.enable_conf then
        let w := ea.window_size.getD 2048
        if w < 0 then none
        else some ⟨w, some [], some [], some (ea.threshold.getD 17)⟩
      else some ⟨-1, none, none, none⟩
  | none => some ⟨-1, none, none, none⟩

/-- `LogprobsProcessor.from_new_request` (lines 43-81); the leading
`assert request.sampling_params is not None` is the `none` case. -/
def from_new_request (tokenizer : Option (ℤ → String))
    (request : EngineCoreRequest) : Option LogprobsProcessor :=
  match request.sampling_params with
  | none => none
  | some sp =>
    match confFields sp.extra_args with
    | none => none
    | some cf =>
      some {
        conf_grouped := 0
        conf_list := cf.conf_list
        conf_group_list := cf.conf_group_list
        conf_group_size := cf.conf_group_size
        conf_threshold := cf.conf_threshold
        tokenizer := tokenizer
        logprobs := match sp.logprobs with | none => none | some _ => some []
        prompt_logprobs :=
          match sp.prompt_logprobs with | none => none | some _ => some [none]
        cumulative_logprob := match sp.logprobs with | none => none | some _ => some 0
        num_logprobs := sp.logprobs
        num_prompt_logprobs := sp.prompt_logprobs }

/-- The `decoded_tokens` computation at lines 104-105: `NONES` without a
tokenizer, otherwise the bulk-decoded top-k ids. -/
def decodedFor : Option (ℤ → String) → List ℤ → DecodedSeq
  | none, _ => DecodedSeq.nones
  | some tok, tids => DecodedSeq.ofList (convert_ids_list_to_tokens tok tids)

/-- Lines 121-135 of `_update_sample_logprobs`: the confidence bookkeeping for
one token, given that token's full logprob list `lps`.  `conf_group_list` being
`none` while `conf_list` is set is unreachable from construction; Python would
raise there (`len(None)`), modelled as `none`.  `popleft` of an empty deque is
an `IndexError`, also `none`. -/
def confUpdate (s : LogprobsProcessor) (lps : List ℚ) : Option LogprobsProcessor :=
  match s.conf_list with
  | none => some s
  | some cl =>
    let new_conf : ℚ :=
      if 1 < lps.length then
        -(List.sum (List.drop 1 lps)) / (((List.drop 1 lps).length : ℚ))
      else 0
    match s.conf_group_list with
    | none => none
    | some gl =>
      if (gl.length : ℤ) < s.conf_group_size then
        some { s with conf_list := some (cl ++ [new_conf]),
                      conf_group_list := some (gl ++ [new_conf]),
                      conf_grouped := s.conf_grouped + new_conf }
      else
        match gl with
        | [] => none
        | old :: rest =>
          some { s with conf_list := some (cl ++ [new_conf]),
                        conf_group_list := some (rest ++ [new_conf]),
                        conf_grouped := s.conf_grouped - old + new_conf }

/-- The loop body of `_update_sample_logprobs` (lines 100-135) for one token:
decode, accumulate `logprobs[0]` into the cumulative sum (an empty `lps` is
Python's `IndexError`, hence `none`), append the position record, then run the
confidence bookkeeping. -/
def sampleStep (s : LogprobsProcessor) (rank : ℤ) (lps : List ℚ)
    (tids : List ℤ) : Option LogprobsProcessor :=
  match s.logprobs with
  | none => none
  | some slps =>
    match s.cumulative_logprob with
    | none => none
    | some cum =>
      match s.num_logprobs with
      | none => none
      | some nl =>
        match lps with
        | [] => none
        | sampled :: _ =>
          confUpdate
            { s with
              cumulative_logprob := some (cum + sampled),
              logprobs := some (slps ++
                [makeLogprobDict lps tids (decodedFor s.tokenizer tids) rank nl]) }
            lps

/-- `zip(ranks_lst, logprobs_lst, token_ids_lst)` at line 100: truncates to
the shortest of the three parallel sequences. -/
def zip3L : List ℤ → List (List ℚ) → List (List ℤ) → List (ℤ × List ℚ × List ℤ)
  | r :: rs, l :: ls, t :: ts => (r, l, t) :: zip3L rs ls ts
  | _, _, _ => []

/-- The `for` loop of `_update_sample_logprobs` over the zipped triples. -/
def sampleLoop : LogprobsProcessor → List (ℤ × List ℚ × List ℤ) →
    Option LogprobsProcessor
  | s, [] => some s
  | s, (rank, lps, tids) :: rest =>
    match sampleStep s rank lps tids with
    | none => none
    | some s1 => sampleLoop s1 rest

/-- `LogprobsProcessor._update_sample_logprobs` (lines 83-135); the three
leading `assert`s are the `none` cases. -/
def update_sample_logprobs (s : LogprobsProcessor) (ll : LogprobsLists) :
    Option LogprobsProcessor :=
  match s.num_logprobs, s.logprobs, s.cumulative_logprob with
  | some _, some _, some _ =>
      sampleLoop s (zip3L ll.sampled_token_ranks ll.logprobs ll.logprob_token_ids)
  | _, _, _ => none

/-- The `for pos in range(num_prompt_tokens)` loop of `_update_prompt_logprobs`
(lines 170-182), processing positions `pos, pos+1, ...` with `n` positions
left.  A missing row or rank (ragged data) is an `IndexError`, hence `none`. -/
def promptGo (t : LogprobsTensors) (numLps : ℕ) :
    LogprobsProcessor → ℕ → ℕ → Option LogprobsProcessor
  | s, _, 0 => some s
  | s, pos, Nat.succ n =>
    match t.logprob_token_ids[pos]?, t.logprobs[pos]?,
          t.selected_token_ranks[pos]?, s.prompt_logprobs, s.num_prompt_logprobs with
    | some tids, some lps, some rank, some plps, some npl =>
      let dec : DecodedSeq :=
        match s.tokenizer with
        | none => DecodedSeq.nones
        | some tok =>
          DecodedSeq.ofList (List.take numLps (List.drop (pos * numLps)
            (convert_ids_list_to_tokens tok t.logprob_token_ids.flatten)))
      let record := makeLogprobDict lps tids dec rank npl
      promptGo t numLps { s with prompt_logprobs := some (plps ++ [some record]) }
        (pos + 1) n
    | _, _, _, _, _ => none

/-- `LogprobsProcessor._update_prompt_logprobs` (lines 137-182); the two
leading `assert`s are the `none` cases.  Decoding flattens the whole chunk and
re-slices per position (`decoded_tokens[offset:offset_end]`); the shape
`num_prompt_tokens × num_logprobs` is recovered from the logprobs tensor. -/
def update_prompt_logprobs (s : LogprobsProcessor) (t : LogprobsTensors) :
    Option LogprobsProcessor :=
  match s.num_prompt_logprobs, s.prompt_logprobs with
  | some _, some _ =>
      promptGo t ((t.logprobs.headD []).length) s 0 t.logprobs.length
  | _, _ => none

/-- `LogprobsProcessor.pop_prompt_logprobs` (lines 184-201), returning the
popped value together with the new state.  `if plp:` is Python truthiness:
the buffer is reset only when it is a non-empty list. -/
def pop_prompt_logprobs (s : LogprobsProcessor) :
    Option (List (Option PositionRecord)) × LogprobsProcessor :=
  match s.prompt_logprobs with
  | none => (none, s)
  | some plp =>
    if plp.isEmpty then (some plp, s)
    else (some plp, { s with prompt_logprobs := some [] })

/-- The slice of `EngineCoreOutput` read by `update_from_output`. -/
structure EngineCoreOutput where
  new_logprobs : Option LogprobsLists
  new_prompt_logprobs_tensors : Option LogprobsTensors

/-- `LogprobsProcessor.update_from_output` (lines 242-246). -/
def update_from_output (s : LogprobsProcessor) (output : EngineCoreOutput) :
    Option LogprobsProcessor :=
  match output.new_logprobs with
  | none =>
    (match output.new_prompt_logprobs_tensors with
     | none => some s
     | some t => update_prompt_logprobs s t)
  | some ll =>
    match update_sample_logprobs s ll with
    | none => none
    | some s1 =>
      match output.new_prompt_logprobs_tensors with
      | none => some s1
      | some t => update_prompt_logprobs s1 t

/-- `LogprobsProcessor.check_conf_stop` (lines 248-254).  When the window is
live but the threshold is `none` (a state unreachable from construction)
Python would raise a `TypeError` on the comparison; that branch is modelled as
`false` and every theorem about this function assumes a threshold is set. -/
def check_conf_stop (s : LogprobsProcessor) : Bool :=
  match s.conf_group_list with
  | none => false
  | some gl =>
    if gl.length = 0 then false
    else
      decide (s.conf_group_size ≤ (gl.length : ℤ)) &&
        (match s.conf_threshold with
         | none => false
         | some t => decide (s.conf_grouped / (gl.length : ℚ) < t))

/-- A sequence of sample-logprob update calls. -/
def runUpdates : LogprobsProcessor → List LogprobsLists → Option LogprobsProcessor
  | s, [] => some s
  | s, ll :: rest =>
    match update_sample_logprobs s ll with
    | none => none
    | some s1 => runUpdates s1 rest

/-- A sequence of prompt-logprob update calls. -/
def runPromptUpdates : LogprobsProcessor → List LogprobsTensors →
    Option LogprobsProcessor
  | s, [] => some s
  | s, t :: rest =>
    match update_prompt_logprobs s t with
    | none => none
    | some s1 => runPromptUpdates s1 rest

/-- The confidence-window invariant of the spec (§3): the window never exceeds
its capacity and the running sum is exactly the sum of its contents. -/
def ConfInv (s : LogprobsProcessor) : Prop :=
  ∀ gl, s.conf_group_list = some gl →
    (gl.length : ℤ) ≤ s.conf_group_size ∧ s.conf_grouped = gl.sum

/-! ### Concrete instances used by witnesses and counterexamples -/

/-- A fully disabled processor state (harmless fallback for `match` defaults). -/
def procInert : LogprobsProcessor :=
  { conf_grouped := 0, conf_list := none, conf_group_list := none,
    conf_group_size := -1, conf_threshold := none, tokenizer := none,
    logprobs := none, prompt_logprobs := none, cumulative_logprob := none,
    num_logprobs := none, num_prompt_logprobs := none }

/-- A request enabling only prompt logprobs. -/
def c1req : EngineCoreRequest := ⟨some ⟨none, some 1, none⟩⟩

def c1s0 : LogprobsProcessor :=
  match from_new_request none c1req with
  | some s => s
  | none => procInert

/-- One prompt chunk: one position, top-1 id `5` with logprob `-1`, rank 1. -/
def c1t : LogprobsTensors := ⟨[[5]], [[-1]], [1]⟩

/-- The state after a drain followed by one prompt-logprob update. -/
def c1s2 : LogprobsProcessor :=
  match update_prompt_logprobs (pop_prompt_logprobs c1s0).2 c1t with
  | some s => s
  | none => procInert

/-- The state after one prompt-logprob update from construction, no drain. -/
def c1aS : LogprobsProcessor :=
  match runPromptUpdates c1s0 [c1t] with
  | some s => s
  | none => procInert

/-- A request enabling only sample logprobs. -/
def c2req : EngineCoreRequest := ⟨some ⟨some 1, none, none⟩⟩

def c2s0 : LogprobsProcessor :=
  match from_new_request none c2req with
  | some s => s
  | none => procInert

/-- Mismatched batch: one token-id row but two logprob rows and two ranks. -/
def c2ll : LogprobsLists := ⟨[[7]], [[-1], [-2]], [3, 4]⟩

/-- A request with sample logprobs and the confidence stop, `W=2`, `T=17`. -/
def c3req : EngineCoreRequest :=
  ⟨some ⟨some 1, none, some ⟨true, some 2, some 17⟩⟩⟩

def c3s0 : LogprobsProcessor :=
  match from_new_request none c3req with
  | some s => s
  | none => procInert

/-- A single-token batch with a single logprob entry, yielding confidence `0`. -/
def c3ll : LogprobsLists := ⟨[[7]], [[-1]], [3]⟩

def c3us : List LogprobsLists := [c3ll, c3ll, c3ll]

def c3sF : LogprobsProcessor :=
  match runUpdates c3s0 (List.take 3 c3us) with
  | some s => s
  | none => procInert

/-- A live confidence window at capacity `2` with contents summing to `4`. -/
def c5s : LogprobsProcessor :=
  { conf_grouped := 4, conf_list := some [2, 2], conf_group_list := some [2, 2],
    conf_group_size := 2, conf_threshold := some 17, tokenizer := none,
    logprobs := some [], prompt_logprobs := none, cumulative_logprob := some 0,
    num_logprobs := some 1, num_prompt_logprobs := none }

/-- A fresh sample-logprobs-only state. -/
def c6s0 : LogprobsProcessor :=
  { conf_grouped := 0, conf_list := none, conf_group_list := none,
    conf_group_size := -1, conf_threshold := none, tokenizer := none,
    logprobs := some [], prompt_logprobs := none, cumulative_logprob := some 0,
    num_logprobs := some 1, num_prompt_logprobs := none }

def c6ll1 : LogprobsLists := ⟨[[7]], [[-1]], [3]⟩

def c6ll2 : LogprobsLists := ⟨[[8]], [[-2]], [4]⟩

def c6us : List LogprobsLists := [c6ll1, c6ll2]

def c6sF : LogprobsProcessor :=
  match runUpdates c6s0 c6us with
  | some s => s
  | none => procInert

/-- A prompt-logprobs-enabled state holding only the initial placeholder. -/
def c7s : LogprobsProcessor :=
  { conf_grouped := 0, conf_list := none, conf_group_list := none,
    conf_group_size := -1, conf_threshold := none, tokenizer := none,
    logprobs := none, prompt_logprobs := some [none], cumulative_logprob := none,
    num_logprobs := none, num_prompt_logprobs := some 1 }

/-- Sample logprobs plus an empty confidence window of capacity `2`. -/
def c8s : LogprobsProcessor :=
  { conf_grouped := 0, conf_list := some [], conf_group_list := some [],
    conf_group_size := 2, conf_threshold := some 17, tokenizer := none,
    logprobs := some [], prompt_logprobs := none, cumulative_logprob := some 0,
    num_logprobs := some 1, num_prompt_logprobs := none }

/-- The state after one sample token carrying a single logprob entry. -/
def c8sF : LogprobsProcessor :=
  match sampleStep c8s 1 [-2] [5] with
  | some s => s
  | none => procInert

/-- A request enabling prompt logprobs with `prompt_logprobs=2`. -/
def c9req : EngineCoreRequest := ⟨some ⟨none, some 2, none⟩⟩

def c9s0 : LogprobsProcessor :=
  match from_new_request none c9req with
  | some s => s
  | none => procInert

/-! ### Helper lemmas: zipping and dict semantics -/

theorem zip3L_length (rs : List ℤ) (ls : List (List ℚ)) (ts : List (List ℤ)) :
    (zip3L rs ls ts).length = min rs.length (min ls.length ts.length) := by
  induction rs generalizing ls ts with
  | nil => cases ls <;> cases ts <;> simp [zip3L]
  | cons r rs ih =>
    cases ls with
    | nil => simp [zip3L]
    | cons l ls =>
      cases ts with
      | nil => simp [zip3L]
      | cons t ts =>
        simp only [zip3L, List.length_cons, ih]
        omega

theorem zipEntries_getElem? :
    ∀ (ts : List ℤ) (ls : List ℚ) (rs : List ℤ) (d : DecodedSeq) (i : ℕ)
      (p : ℤ × Logprob), (zipEntries ts ls rs d)[i]? = some p →
      ts[i]? = some p.1 ∧ rs[i]? = some p.2.rank := by
  intro ts
  induction ts with
  | nil => intro ls rs d i p h; simp [zipEntries] at h
  | cons t ts ih =>
    intro ls rs d i p h
    cases ls with
    | nil => simp [zipEntries] at h
    | cons l ls =>
      cases rs with
      | nil => simp [zipEntries] at h
      | cons r rs =>
        cases d with
        | nones =>
          cases i with
          | zero =>
            simp only [zipEntries, List.getElem?_cons_zero, Option.some_inj] at h
            subst h
            exact ⟨by simp, by simp⟩
          | succ i =>
            simp only [zipEntries, List.getElem?_cons_succ] at h ⊢
            exact ih ls rs DecodedSeq.nones i p h
        | ofList ds =>
          cases ds with
          | nil => simp [zipEntries] at h
          | cons dd ds =>
            cases i with
            | zero =>
              simp only [zipEntries, List.getElem?_cons_zero, Option.some_inj] at h
              subst h
              exact ⟨by simp, by simp⟩
            | succ i =>
              simp only [zipEntries, List.getElem?_cons_succ] at h ⊢
              exact ih ls rs (DecodedSeq.ofList ds) i p h

theorem foldl_dictStep_no_key (ys : PositionRecord) (g : ℤ → Option Logprob)
    (a : ℤ) (h : ∀ kv ∈ ys, kv.1 ≠ a) : (ys.foldl dictStep g) a = g a := by
  induction ys generalizing g with
  | nil => rfl
  | cons kv ys ih =>
    rw [List.foldl_cons,
      ih (dictStep g kv) (fun x hx => h x (List.mem_cons_of_mem _ hx))]
    simp only [dictStep]
    exact if_neg (fun e => h kv (List.mem_cons_self _ _) e.symm)

theorem dictGet_last (d : PositionRecord) (j : ℕ) (a : ℤ) (e : Logprob)
    (hj : d[j]? = some (a, e))
    (hlast : ∀ i kv, j < i → d[i]? = some kv → kv.1 ≠ a) :
    dictGet d a = some e := by
  have hdrop : ∀ kv ∈ d.drop (j + 1), kv.1 ≠ a := by
    intro kv hkv
    rcases List.mem_iff_getElem?.mp hkv with ⟨n, hn⟩
    rw [List.getElem?_drop] at hn
    exact hlast (j + 1 + n) kv (by omega) hn
  have htake : d.take (j + 1) = d.take j ++ [(a, e)] := by
    rw [List.take_succ, hj]; rfl
  calc dictGet d a
      = (List.foldl dictStep (fun _ => none) (d.take (j + 1) ++ d.drop (j + 1))) a := by
        rw [List.take_append_drop]; rfl
    _ = (List.foldl dictStep
          (List.foldl dictStep (fun _ => none) (d.take (j + 1))) (d.drop (j + 1))) a := by
        rw [List.foldl_append]
    _ = (List.foldl dictStep (fun _ => none) (d.take (j + 1))) a :=
        foldl_dictStep_no_key _ _ _ hdrop
    _ = some e := by
        rw [htake, List.foldl_append]
        simp [dictStep]

/-- `makeLogprobDict` with its `let` unfolded. -/
theorem makeLogprobDict_eq (lps : List ℚ) (tids : List ℤ) (dec : DecodedSeq)
    (rank n : ℤ) :
    makeLogprobDict lps tids dec rank n =
      zipEntries tids lps
        (rank :: topkRanks (if n = -1 then (lps.length : ℤ) else n)) dec := rfl

/-- An entry of `topkRanks` at position `m` is the rank `m + 1`. -/
theorem topkRanks_getElem?_eq {k : ℤ} {m : ℕ} {v : ℤ}
    (h : (topkRanks k)[m]? = some v) : v = (m : ℤ) + 1 := by
  unfold topkRanks at h
  rw [List.getElem?_map] at h
  rcases hr : (List.range k.toNat)[m]? with _ | w
  · rw [hr] at h
    simp at h
  · rw [hr] at h
    obtain ⟨hlt, hval⟩ := List.getElem?_eq_some.mp hr
    rw [List.getElem_range] at hval
    simp only [Option.map_some', Option.some_inj] at h
    rw [← h, hval]

/-! ### Helper lemmas: the confidence bookkeeping step -/

theorem confUpdate_frame {s : LogprobsProcessor} {lps : List ℚ}
    {s' : LogprobsProcessor} (h : confUpdate s lps = some s') :
    s'.logprobs = s.logprobs ∧ s'.cumulative_logprob = s.cumulative_logprob ∧
    s'.num_logprobs = s.num_logprobs ∧ s'.prompt_logprobs = s.prompt_logprobs ∧
    s'.num_prompt_logprobs = s.num_prompt_logprobs ∧
    s'.conf_group_size = s.conf_group_size ∧ s'.tokenizer = s.tokenizer ∧
    s'.conf_threshold = s.conf_threshold := by
  unfold confUpdate at h
  rcases hcl : s.conf_list with _ | cl
  · rw [hcl] at h
    simp only [Option.some_inj] at h
    subst h
    exact ⟨rfl, rfl, rfl, rfl, rfl, rfl, rfl, rfl⟩
  · rw [hcl] at h
    rcases hgl : s.conf_group_list with _ | gl
    · simp [hgl] at h
    · simp only [hgl] at h
      by_cases hlt : (gl.length : ℤ) < s.conf_group_size
      · rw [if_pos hlt] at h
        simp only [Option.some_inj] at h
        subst h
        exact ⟨rfl, rfl, rfl, rfl, rfl, rfl, rfl, rfl⟩
      · rw [if_neg hlt] at h
        cases gl with
        | nil => simp at h
        | cons old rest =>
          simp only [Option.some_inj] at h
          subst h
          exact ⟨rfl, rfl, rfl, rfl, rfl, rfl, rfl, rfl⟩

theorem confUpdate_disabled {s : LogprobsProcessor} {lps : List ℚ}
    (hcl : s.conf_list = none) : confUpdate s lps = some s := by
  unfold confUpdate
  rw [hcl]

theorem confUpdate_conf_list {s : LogprobsProcessor} {lps : List ℚ}
    {s' : LogprobsProcessor} {cl : List ℚ}
    (h : confUpdate s lps = some s') (hcl : s.conf_list = some cl) :
    s'.conf_list = some (cl ++
      [if 1 < lps.length then
        -(List.sum (List.drop 1 lps)) / (((List.drop 1 lps).length : ℚ))
       else 0]) := by
  unfold confUpdate at h
  rw [hcl] at h
  rcases hgl : s.conf_group_list with _ | gl
  · simp [hgl] at h
  · simp only [hgl] at h
    by_cases hlt : (gl.length : ℤ) < s.conf_group_size
    · rw [if_pos hlt] at h
      simp only [Option.some_inj] at h
      subst h
      rfl
    · rw [if_neg hlt] at h
      cases gl with
      | nil => simp at h
      | cons old rest =>
        simp only [Option.some_inj] at h
        subst h
        rfl

theorem confUpdate_inv {s : LogprobsProcessor} {lps : List ℚ}
    {s' : LogprobsProcessor} (h : confUpdate s lps = some s')
    (hinv : ConfInv s) : ConfInv s' := by
  unfold confUpdate at h
  rcases hcl : s.conf_list with _ | cl
  · rw [hcl] at h
    simp only [Option.some_inj] at h
    subst h
    exact hinv
  · rw [hcl] at h
    rcases hgl : s.conf_group_list with _ | gl
    · simp [hgl] at h
    · simp only [hgl] at h
      by_cases hlt : (gl.length : ℤ) < s.conf_group_size
      · rw [if_pos hlt] at h
        simp only [Option.some_inj] at h
        subst h
        intro gl' hgl'
        simp only [Option.some_inj] at hgl'
        subst hgl'
        obtain ⟨-, hsum⟩ := hinv gl hgl
        constructor
        · simp only [List.length_append, List.length_singleton]
          push_cast
          omega
        · simp [hsum]
      · rw [if_neg hlt] at h
        cases gl with
        | nil => simp at h
        | cons old rest =>
          simp only [Option.some_inj] at h
          subst h
          intro gl' hgl'
          simp only [Option.some_inj] at hgl'
          subst hgl'
          obtain ⟨hlen, hsum⟩ := hinv (old :: rest) hgl
          constructor
          · simp only [List.length_append, List.length_singleton]
            simp only [List.length_cons] at hlen
            push_cast at hlen ⊢
            omega
          · rw [hsum]
            simp only [List.sum_cons, List.sum_append, List.sum_singleton,
              List.sum_nil]
            ring

/-! ### Helper lemmas: one sample token step -/

theorem sampleStep_spec {s : LogprobsProcessor} {rank : ℤ} {lps : List ℚ}
    {tids : List ℤ} {s' : LogprobsProcessor}
    (h : sampleStep s rank lps tids = some s') :
    ∃ slps cum nl sampled rest,
      s.logprobs = some slps ∧ s.cumulative_logprob = some cum ∧
      s.num_logprobs = some nl ∧ lps = sampled :: rest ∧
      confUpdate { s with
          cumulative_logprob := some (cum + sampled),
          logprobs := some (slps ++
            [makeLogprobDict lps tids (decodedFor s.tokenizer tids) rank nl]) }
        lps = some s' := by
  unfold sampleStep at h
  rcases hlp : s.logprobs with _ | slps
  · rw [hlp] at h; simp at h
  · rw [hlp] at h
    rcases hcu : s.cumulative_logprob with _ | cum
    · rw [hcu] at h; simp at h
    · rw [hcu] at h
      rcases hnl : s.num_logprobs with _ | nl
      · rw [hnl] at h; simp at h
      · rw [hnl] at h
        cases lps with
        | nil => simp at h
        | cons sampled rest =>
          exact ⟨slps, cum, nl, sampled, rest, rfl, rfl, rfl, rfl, h⟩

theorem sampleStep_fields {s : LogprobsProcessor} {rank : ℤ} {lps : List ℚ}
    {tids : List ℤ} {s' : LogprobsProcessor}
    (h : sampleStep s rank lps tids = some s') :
    ∃ slps cum nl sampled rest,
      s.logprobs = some slps ∧ s.cumulative_logprob = some cum ∧
      s.num_logprobs = some nl ∧ lps = sampled :: rest ∧
      s'.logprobs = some (slps ++
        [makeLogprobDict lps tids (decodedFor s.tokenizer tids) rank nl]) ∧
      s'.cumulative_logprob = some (cum + sampled) ∧
      s'.num_logprobs = some nl ∧
      s'.prompt_logprobs = s.prompt_logprobs ∧
      s'.num_prompt_logprobs = s.num_prompt_logprobs ∧
      s'.conf_group_size = s.conf_group_size ∧
      s'.tokenizer = s.tokenizer ∧
      (s.conf_list = none → s'.conf_list = none) := by
  obtain ⟨slps, cum, nl, sampled, rest, h1, h2, h3, h4, hcu⟩ := sampleStep_spec h
  obtain ⟨f1, f2, f3, f4, f5, f6, f7, f8⟩ := confUpdate_frame hcu
  refine ⟨slps, cum, nl, sampled, rest, h1, h2, h3, h4, ?_, ?_, ?_, ?_, ?_, ?_, ?_, ?_⟩
  · rw [f1]
  · rw [f2]
  · rw [f3]; exact h3
  · rw [f4]
  · rw [f5]
  · rw [f6]
  · rw [f7]
  · intro hcl
    have := @confUpdate_disabled { s with
        cumulative_logprob := some (cum + sampled),
        logprobs := some (slps ++
          [makeLogprobDict lps tids (decodedFor s.tokenizer tids) rank nl]) }
      lps hcl
    rw [this] at hcu
    simp only [Option.some_inj] at hcu
    subst hcu
    exact hcl

theorem sampleStep_inv {s : LogprobsProcessor} {rank : ℤ} {lps : List ℚ}
    {tids : List ℤ} {s' : LogprobsProcessor}
    (h : sampleStep s rank lps tids = some s') (hinv : ConfInv s) : ConfInv s' := by
  obtain ⟨slps, cum, nl, sampled, rest, h1, h2, h3, h4, hcu⟩ := sampleStep_spec h
  exact confUpdate_inv hcu hinv

theorem sampleLoop_inv :
    ∀ (tr : List (ℤ × List ℚ × List ℤ)) (s s' : LogprobsProcessor),
      sampleLoop s tr = some s' → ConfInv s →
      ConfInv s' ∧ s'.conf_group_size = s.conf_group_size := by
  intro tr
  induction tr with
  | nil =>
    intro s s' h hinv
    simp only [sampleLoop, Option.some_inj] at h
    subst h
    exact ⟨hinv, rfl⟩
  | cons x rest ih =>
    intro s s' h hinv
    obtain ⟨rank, lps, tids⟩ := x
    unfold sampleLoop at h
    rcases hstep : sampleStep s rank lps tids with _ | s1
    · rw [hstep] at h; simp at h
    · rw [hstep] at h
      have h' : sampleLoop s1 rest = some s' := h
      obtain ⟨hinv', hsz⟩ := ih s1 s' h' (sampleStep_inv hstep hinv)
      obtain ⟨_, _, _, _, _, _, _, _, _, _, _, _, _, _, hsz1, _, _⟩ :=
        sampleStep_fields hstep
      exact ⟨hinv', by rw [hsz, hsz1]⟩

theorem update_sample_logprobs_inv {s s' : LogprobsProcessor} {ll : LogprobsLists}
    (h : update_sample_logprobs s ll = some s') (hinv : ConfInv s) :
    ConfInv s' ∧ s'.conf_group_size = s.conf_group_size := by
  unfold update_sample_logprobs at h
  rcases h1 : s.num_logprobs with _ | nl <;> rw [h1] at h
  · simp at h
  · rcases h2 : s.logprobs with _ | slps <;> rw [h2] at h
    · simp at h
    · rcases h3 : s.cumulative_logprob with _ | cum <;> rw [h3] at h
      · simp at h
      · exact sampleLoop_inv _ s s' h hinv

theorem runUpdates_inv :
    ∀ (us : List LogprobsLists) (s s' : LogprobsProcessor),
      runUpdates s us = some s' → ConfInv s →
      ConfInv s' ∧ s'.conf_group_size = s.conf_group_size := by
  intro us
  induction us with
  | nil =>
    intro s s' h hinv
    simp only [runUpdates, Option.some_inj] at h
    subst h
    exact ⟨hinv, rfl⟩
  | cons ll rest ih =>
    intro s s' h hinv
    unfold runUpdates at h
    rcases hu : update_sample_logprobs s ll with _ | s1
    · rw [hu] at h; simp at h
    · rw [hu] at h
      have h' : runUpdates s1 rest = some s' := h
      obtain ⟨hinv1, hsz1⟩ := update_sample_logprobs_inv hu hinv
      obtain ⟨hinv', hsz⟩ := ih s1 s' h' hinv1
      exact ⟨hinv', by rw [hsz, hsz1]⟩

theorem sampleLoop_singleton (s : LogprobsProcessor) (r : ℤ) (l : List ℚ)
    (t : List ℤ) : sampleLoop s [(r, l, t)] = sampleStep s r l t := by
  unfold sampleLoop
  rcases h : sampleStep s r l t with _ | s1 <;> simp [h, sampleLoop]

theorem sampleLoop_noconf_len :
    ∀ (tr : List (ℤ × List ℚ × List ℤ)) (s : LogprobsProcessor)
      (L : List PositionRecord) (c : ℚ) (nl : ℤ),
      s.logprobs = some L → s.cumulative_logprob = some c →
      s.num_logprobs = some nl → s.conf_list = none →
      (∀ x ∈ tr, x.2.1 ≠ ([] : List ℚ)) →
      ∃ s' L', sampleLoop s tr = some s' ∧ s'.logprobs = some L' ∧
        L'.length = L.length + tr.length := by
  intro tr
  induction tr with
  | nil =>
    intro s L c nl hL hc hn hcl hne
    exact ⟨s, L, rfl, hL, by simp⟩
  | cons x rest ih =>
    intro s L c nl hL hc hn hcl hne
    obtain ⟨rank, lps, tids⟩ := x
    have hlps : lps ≠ [] := hne (rank, lps, tids) (List.mem_cons_self _ _)
    obtain ⟨sampled, lrest, rfl⟩ : ∃ a l, lps = a :: l := by
      cases lps with
      | nil => exact absurd rfl hlps
      | cons a l => exact ⟨a, l, rfl⟩
    have hstep : sampleStep s rank (sampled :: lrest) tids = some
        { s with cumulative_logprob := some (c + sampled),
                 logprobs := some (L ++ [makeLogprobDict (sampled :: lrest) tids
                   (decodedFor s.tokenizer tids) rank nl]) } := by
      unfold sampleStep
      rw [hL, hc, hn]
      exact confUpdate_disabled hcl
    obtain ⟨s', L', hrun, hL', hlen⟩ := ih
      { s with cumulative_logprob := some (c + sampled),
               logprobs := some (L ++ [makeLogprobDict (sampled :: lrest) tids
                 (decodedFor s.tokenizer tids) rank nl]) }
      (L ++ [makeLogprobDict (sampled :: lrest) tids
        (decodedFor s.tokenizer tids) rank nl])
      (c + sampled) nl rfl rfl hn hcl
      (fun y hy => hne y (List.mem_cons_of_mem _ hy))
    refine ⟨s', L', ?_, hL', ?_⟩
    · unfold sampleLoop
      rw [hstep]
      exact hrun
    · rw [hlen]
      simp only [List.length_append, List.length_cons, List.length_nil]
      omega

theorem update_sample_logprobs_noconf {s : LogprobsProcessor} {ll : LogprobsLists}
    {L : List PositionRecord} {c : ℚ} {nl : ℤ}
    (hL : s.logprobs = some L) (hc : s.cumulative_logprob = some c)
    (hn : s.num_logprobs = some nl) (hcl : s.conf_list = none)
    (hne : ∀ x ∈ zip3L ll.sampled_token_ranks ll.logprobs ll.logprob_token_ids,
      x.2.1 ≠ ([] : List ℚ)) :
    ∃ s' L', update_sample_logprobs s ll = some s' ∧ s'.logprobs = some L' ∧
      L'.length = L.length +
        min ll.sampled_token_ranks.length
          (min ll.logprobs.length ll.logprob_token_ids.length) := by
  obtain ⟨s', L', hrun, hL', hlen⟩ :=
    sampleLoop_noconf_len _ s L c nl hL hc hn hcl hne
  refine ⟨s', L', ?_, hL', by rw [hlen, zip3L_length]⟩
  unfold update_sample_logprobs
  rw [hn, hL, hc]
  exact hrun

theorem runUpdates_one_token :
    ∀ (us : List LogprobsLists) (s s' : LogprobsProcessor)
      (L : List PositionRecord) (c : ℚ) (nl : ℤ),
      s.logprobs = some L → s.cumulative_logprob = some c →
      s.num_logprobs = some nl →
      (∀ ll ∈ us, ll.sampled_token_ranks.length = 1 ∧ ll.logprobs.length = 1 ∧
        ll.logprob_token_ids.length = 1) →
      runUpdates s us = some s' →
      ∃ L', s'.logprobs = some (L ++ L') ∧ L'.length = us.length ∧
        s'.cumulative_logprob =
          some (c + (us.map (fun ll => (ll.logprobs.headD []).headD 0)).sum) := by
  intro us
  induction us with
  | nil =>
    intro s s' L c nl hL hc hn hone h
    simp only [runUpdates, Option.some_inj] at h
    subst h
    exact ⟨[], by simp [hL], rfl, by simp [hc]⟩
  | cons ll rest ih =>
    intro s s' L c nl hL hc hn hone h
    obtain ⟨hr1, hl1, ht1⟩ := hone ll (List.mem_cons_self _ _)
    obtain ⟨r, hr⟩ := List.length_eq_one.mp hr1
    obtain ⟨lp, hl⟩ := List.length_eq_one.mp hl1
    obtain ⟨ti, hti⟩ := List.length_eq_one.mp ht1
    unfold runUpdates at h
    rcases hu : update_sample_logprobs s ll with _ | s1
    · rw [hu] at h; simp at h
    · rw [hu] at h
      have h' : runUpdates s1 rest = some s' := h
      have hu' : sampleStep s r lp ti = some s1 := by
        unfold update_sample_logprobs at hu
        rw [hn, hL, hc, hr, hl, hti] at hu
        rw [show zip3L [r] [lp] [ti] = [(r, lp, ti)] from rfl,
          sampleLoop_singleton] at hu
        exact hu
      obtain ⟨slps, cum, nl', sampled, lrest, f1, f2, f3, f4, f5, f6, f7, f8, f9,
        f10, f11, f12⟩ := sampleStep_fields hu'
      have hLs : slps = L := by
        rw [hL] at f1
        exact (Option.some_inj.mp f1).symm
      have hcs : cum = c := by
        rw [hc] at f2
        exact (Option.some_inj.mp f2).symm
      have hns : nl' = nl := by
        rw [hn] at f3
        exact (Option.some_inj.mp f3).symm
      rw [hLs, hns] at f5
      rw [hcs] at f6
      rw [hns] at f7
      obtain ⟨L'', g1, g2, g3⟩ := ih s1 s'
        (L ++ [makeLogprobDict lp ti (decodedFor s.tokenizer ti) r nl])
        (c + sampled) nl f5 f6 f7
        (fun y hy => hone y (List.mem_cons_of_mem _ hy)) h'
      refine ⟨[makeLogprobDict lp ti (decodedFor s.tokenizer ti) r nl] ++ L'',
        ?_, ?_, ?_⟩
      · rw [g1, List.append_assoc]
      · simp only [List.length_append, List.length_cons, List.length_nil]
        omega
      · rw [g3]
        congr 1
        simp only [List.map_cons, List.sum_cons, hl, List.headD_cons, f4]
        ring

/-! ### Helper lemmas: construction -/

theorem confFields_spec {ea : Option ExtraArgs} {cf : ConfCfg}
    (h : confFields ea = some cf) :
    cf.conf_group_list = none ∨
      (cf.conf_group_list = some [] ∧ 0 ≤ cf.conf_group_size) := by
  unfold confFields at h
  cases ea with
  | none =>
    simp only [Option.some_inj] at h
    subst h
    exact Or.inl rfl
  | some e =>
    by_cases hb : e.enable_conf
    · simp only [hb, if_true] at h
      by_cases hw : e.window_size.getD 2048 < 0
      · simp [hw] at h
      · simp only [hw, if_false] at h
        simp only [Option.some_inj] at h
        subst h
        exact Or.inr ⟨rfl, by simpa using le_of_not_lt hw⟩
    · simp only [Bool.not_eq_true] at hb
      simp only [hb, Bool.false_eq_true, if_false] at h
      simp only [Option.some_inj] at h
      subst h
      exact Or.inl rfl

theorem from_new_request_spec {tok : Option (ℤ → String)} {req : EngineCoreRequest}
    {s0 : LogprobsProcessor} (h : from_new_request tok req = some s0) :
    ∃ sp cf, req.sampling_params = some sp ∧ confFields sp.extra_args = some cf ∧
      s0.conf_grouped = 0 ∧ s0.conf_list = cf.conf_list ∧
      s0.conf_group_list = cf.conf_group_list ∧
      s0.conf_group_size = cf.conf_group_size ∧
      s0.conf_threshold = cf.conf_threshold ∧
      s0.tokenizer = tok ∧
      s0.logprobs = (match sp.logprobs with | none => none | some _ => some []) ∧
      s0.prompt_logprobs =
        (match sp.prompt_logprobs with | none => none | some _ => some [none]) ∧
      s0.cumulative_logprob =
        (match sp.logprobs with | none => none | some _ => some 0) ∧
      s0.num_logprobs = sp.logprobs ∧
      s0.num_prompt_logprobs = sp.prompt_logprobs := by
  unfold from_new_request at h
  split at h
  · simp at h
  next sp hsp =>
    split at h
    · simp at h
    next cf hcf =>
      simp only [Option.some_inj] at h
      subst h
      exact ⟨sp, cf, hsp, hcf, rfl, rfl, rfl, rfl, rfl, rfl, rfl, rfl, rfl,
        rfl, rfl⟩

theorem from_new_request_confInv {tok : Option (ℤ → String)}
    {req : EngineCoreRequest} {s0 : LogprobsProcessor}
    (h : from_new_request tok req = some s0) : ConfInv s0 := by
  obtain ⟨sp, cf, hsp, hcf, hg, hclst, hgl, hsz, -⟩ := from_new_request_spec h
  intro gl hgl'
  rcases confFields_spec hcf with hnone | ⟨hemp, hpos⟩
  · rw [hgl, hnone] at hgl'
    simp at hgl'
  · rw [hgl, hemp] at hgl'
    simp only [Option.some_inj] at hgl'
    subst hgl'
    constructor
    · rw [hsz]
      simpa using hpos
    · rw [hg]
      simp

/-! ### Helper lemmas: prompt updates only append -/

theorem promptGo_suffix (t : LogprobsTensors) (numLps : ℕ) :
    ∀ (n pos : ℕ) (s s' : LogprobsProcessor) (pl : List (Option PositionRecord)),
      promptGo t numLps s pos n = some s' → s.prompt_logprobs = some pl →
      ∃ ext, s'.prompt_logprobs = some (pl ++ ext) := by
  intro n
  induction n with
  | zero =>
    intro pos s s' pl h hpl
    simp only [promptGo, Option.some_inj] at h
    subst h
    exact ⟨[], by simp [hpl]⟩
  | succ n ih =>
    intro pos s s' pl h hpl
    unfold promptGo at h
    rcases h1 : t.logprob_token_ids[pos]? with _ | tids
    · rw [h1] at h; simp at h
    rcases h2 : t.logprobs[pos]? with _ | lpsR
    · rw [h1, h2] at h; simp at h
    rcases h3 : t.selected_token_ranks[pos]? with _ | rank
    · rw [h1, h2, h3] at h; simp at h
    rcases h5 : s.num_prompt_logprobs with _ | npl
    · rw [h1, h2, h3, hpl, h5] at h; simp at h
    rw [h1, h2, h3, hpl, h5] at h
    obtain ⟨ext, he⟩ := ih (pos + 1) _ s' _ h rfl
    exact ⟨_, by rw [he, List.append_assoc]⟩

theorem update_prompt_logprobs_suffix {s s' : LogprobsProcessor}
    {t : LogprobsTensors} {pl : List (Option PositionRecord)}
    (h : update_prompt_logprobs s t = some s')
    (hpl : s.prompt_logprobs = some pl) :
    ∃ ext, s'.prompt_logprobs = some (pl ++ ext) := by
  unfold update_prompt_logprobs at h
  rcases hn : s.num_prompt_logprobs with _ | npl
  · rw [hn, hpl] at h; simp at h
  · rw [hn, hpl] at h
    exact promptGo_suffix t _ _ 0 s s' pl h hpl

theorem runPromptUpdates_suffix :
    ∀ (ts : List LogprobsTensors) (s s' : LogprobsProcessor)
      (pl : List (Option PositionRecord)),
      runPromptUpdates s ts = some s' → s.prompt_logprobs = some pl →
      ∃ ext, s'.prompt_logprobs = some (pl ++ ext) := by
  intro ts
  induction ts with
  | nil =>
    intro s s' pl h hpl
    simp only [runPromptUpdates, Option.some_inj] at h
    subst h
    exact ⟨[], by simp [hpl]⟩
  | cons t rest ih =>
    intro s s' pl h hpl
    unfold runPromptUpdates at h
    rcases hu : update_prompt_logprobs s t with _ | s1
    · rw [hu] at h; simp at h
    · rw [hu] at h
      have h' : runPromptUpdates s1 rest = some s' := h
      obtain ⟨ext1, he1⟩ := update_prompt_logprobs_suffix hu hpl
      obtain ⟨ext2, he2⟩ := ih s1 s' (pl ++ ext1) h' he1
      exact ⟨ext1 ++ ext2, by rw [he2, List.append_assoc]⟩

/-! ### Claim C1 -/

/-- Claim C1, counterexample: starting from a prompt-logprobs-enabled
processor, draining and then applying one prompt-logprob update leaves a real
`PositionRecord` (not the absent placeholder) at position 0 of the
`prompt_log_probs` buffer, so the first buffer element is not always absent
across arbitrary update/drain sequences. -/
theorem C1_counterexample :
    from_new_request none c1req = some c1s0 ∧
    update_prompt_logprobs (pop_prompt_logprobs c1s0).2 c1t = some c1s2 ∧
    (c1s2.prompt_logprobs.getD []).head? ≠ some none :=
  ⟨rfl, rfl, by decide⟩

/-- Claim C1, amended: from construction with prompt logprobs enabled, the
first element of the `prompt_log_probs` buffer is the absent placeholder after
any sequence of prompt-logprob updates, provided no drain has occurred; a
drain empties the buffer, after which subsequently appended records occupy
position 0. -/
theorem C1_amended_first_prompt_none {tok : Option (ℤ → String)}
    {req : EngineCoreRequest} {s0 s' : LogprobsProcessor}
    {updates : List LogprobsTensors}
    (h0 : from_new_request tok req = some s0)
    (hen : s0.prompt_logprobs.isSome = true)
    (hrun : runPromptUpdates s0 updates = some s') :
    ∃ l, s'.prompt_logprobs = some (none :: l) := by
  obtain ⟨sp, cf, hsp, hcf, -, -, -, -, -, -, -, hpl, -, -, -⟩ :=
    from_new_request_spec h0
  have hpl' : s0.prompt_logprobs = some [none] := by
    rcases hnp : sp.prompt_logprobs with _ | npl
    · rw [hnp] at hpl
      rw [hpl] at hen
      simp at hen
    · rw [hnp] at hpl
      exact hpl
  obtain ⟨ext, he⟩ := runPromptUpdates_suffix updates s0 s' [none] hrun hpl'
  exact ⟨ext, by simpa using he⟩

theorem C1_witness : ∃ l, c1aS.prompt_logprobs = some (none :: l) :=
  @C1_amended_first_prompt_none none c1req c1s0 c1aS [c1t] rfl rfl rfl

/-! ### Claim C7 -/

/-- Claim C7: draining returns the whole buffer and resets it to empty while
keeping the feature enabled; an immediate second drain returns the empty
collection; with prompt logprobs disabled every drain returns the distinct
"not applicable" result and leaves the state unchanged. -/
theorem C7_pop_contract (s : LogprobsProcessor) :
    (∀ pl, s.prompt_logprobs = some pl →
      (pop_prompt_logprobs s).1 = some pl ∧
      ((pop_prompt_logprobs s).2).prompt_logprobs = some [] ∧
      ((pop_prompt_logprobs s).2).num_prompt_logprobs = s.num_prompt_logprobs ∧
      (pop_prompt_logprobs ((pop_prompt_logprobs s).2)).1 = some []) ∧
    (s.prompt_logprobs = none →
      (pop_prompt_logprobs s).1 = none ∧ (pop_prompt_logprobs s).2 = s) := by
  constructor
  · intro pl hpl
    cases pl with
    | nil =>
      have h1 : pop_prompt_logprobs s = (some [], s) := by
        unfold pop_prompt_logprobs
        rw [hpl]
        rfl
      rw [h1]
      exact ⟨rfl, hpl, rfl, by rw [h1]⟩
    | cons p0 prest =>
      have h1 : pop_prompt_logprobs s =
          (some (p0 :: prest), { s with prompt_logprobs := some [] }) := by
        unfold pop_prompt_logprobs
        rw [hpl]
        rfl
      rw [h1]
      exact ⟨rfl, rfl, rfl, rfl⟩
  · intro hn
    have h1 : pop_prompt_logprobs s = (none, s) := by
      unfold pop_prompt_logprobs
      rw [hn]
    exact ⟨by rw [h1], by rw [h1]⟩

theorem C7_witness :
    (pop_prompt_logprobs c7s).1 = some [none] ∧
    ((pop_prompt_logprobs c7s).2).prompt_logprobs = some [] ∧
    (pop_prompt_logprobs ((pop_prompt_logprobs c7s).2)).1 = some [] := by
  obtain ⟨h1, h2, h3, h4⟩ := (C7_pop_contract c7s).1 [none] rfl
  exact ⟨h1, h2, h4⟩

/-! ### Claim C8 -/

/-- Claim C8: one sample-token step with the confidence feature enabled appends
to the unbounded history `conf_list` exactly `-mean` of the logprobs after the
first entry when the token carries more than one logprob, and `0` when it
carries exactly one (no alternatives) — the degenerate case is handled, not an
error. -/
theorem C8_conf_value {s : LogprobsProcessor} {rank : ℤ} {lps : List ℚ}
    {tids : List ℤ} {s' : LogprobsProcessor} {cl : List ℚ}
    (hcl : s.conf_list = some cl) (h : sampleStep s rank lps tids = some s') :
    s'.conf_list = some (cl ++
      [if 1 < lps.length then
        -(List.sum (List.drop 1 lps)) / (((List.drop 1 lps).length : ℚ))
       else 0]) := by
  obtain ⟨slps, cum, nl, sampled, rest, f1, f2, f3, f4, hcu⟩ := sampleStep_spec h
  exact confUpdate_conf_list hcu hcl

theorem C8_witness : c8sF.conf_list = some [0] := by
  have h := @C8_conf_value c8s 1 [-2] [5] c8sF [] rfl rfl
  simpa using h

/-! ### Claim C9 -/

/-- Claim C9: immediately after construction with prompt logprobs enabled, the
first drain returns the one-element list containing just the absent
placeholder, not an empty collection, and resets the buffer to empty. -/
theorem C9_first_drain {tok : Option (ℤ → String)} {req : EngineCoreRequest}
    {sp : SamplingParams} {npl : ℤ} {s0 : LogprobsProcessor}
    (hsp : req.sampling_params = some sp) (hnpl : sp.prompt_logprobs = some npl)
    (h0 : from_new_request tok req = some s0) :
    (pop_prompt_logprobs s0).1 = some [none] ∧
    ((pop_prompt_logprobs s0).2).prompt_logprobs = some [] := by
  obtain ⟨sp', cf, hsp', hcf, -, -, -, -, -, -, -, hpl, -, -, -⟩ :=
    from_new_request_spec h0
  have hsps : sp' = sp := by
    rw [hsp] at hsp'
    exact (Option.some_inj.mp hsp').symm
  rw [hsps, hnpl] at hpl
  have hp : s0.prompt_logprobs = some [none] := hpl
  have h1 : pop_prompt_logprobs s0 =
      (some [none], { s0 with prompt_logprobs := some [] }) := by
    unfold pop_prompt_logprobs
    rw [hp]
    rfl
  exact ⟨by rw [h1], by rw [h1]⟩

theorem C9_witness :
    (pop_prompt_logprobs c9s0).1 = some [none] ∧
    ((pop_prompt_logprobs c9s0).2).prompt_logprobs = some [] :=
  @C9_first_drain none c9req ⟨none, some 2, none⟩ 2 c9s0 rfl rfl rfl

/-! ### Claim C10 -/

/-- Claim C10: an engine step output carrying neither sample logprobs nor
prompt-logprob tensors leaves the processor state completely unchanged. -/
theorem C10_no_output_frame (s : LogprobsProcessor) (o : EngineCoreOutput)
    (h1 : o.new_logprobs = none) (h2 : o.new_prompt_logprobs_tensors = none) :
    update_from_output s o = some s := by
  unfold update_from_output
  rw [h1, h2]

theorem C10_witness :
    update_from_output procInert ⟨none, none⟩ = some procInert :=
  C10_no_output_frame procInert ⟨none, none⟩ rfl rfl

/-! ### Claim C2 -/

/-- Claim C2, counterexample: a sample-logprob batch whose parallel sequences
have mismatched lengths is not rejected; the update succeeds and processes the
truncated batch (here one token) instead of failing a precondition check. -/
theorem C2_counterexample :
    c2ll.logprob_token_ids.length ≠ c2ll.logprobs.length ∧
    from_new_request none c2req = some c2s0 ∧
    (update_sample_logprobs c2s0 c2ll).map
      (fun s => (s.logprobs.getD []).length) = some 1 :=
  ⟨by decide, rfl, by rfl⟩

/-- Claim C2, amended: a batch with mismatched parallel sequences is silently
truncated to the shortest of the three sequences — with sample logprobs
enabled (and, for this statement, the confidence feature off and every
surviving token carrying a non-empty logprob list), the update succeeds and
appends exactly `min` of the three lengths records; no precondition violation
is raised for mismatched lengths. -/
theorem C2_amended_truncates {s : LogprobsProcessor} {ll : LogprobsLists}
    {L : List PositionRecord} {c : ℚ} {nl : ℤ}
    (hL : s.logprobs = some L) (hc : s.cumulative_logprob = some c)
    (hn : s.num_logprobs = some nl) (hcl : s.conf_list = none)
    (hne : ∀ x ∈ zip3L ll.sampled_token_ranks ll.logprobs ll.logprob_token_ids,
      x.2.1 ≠ ([] : List ℚ)) :
    ∃ s' L', update_sample_logprobs s ll = some s' ∧ s'.logprobs = some L' ∧
      L'.length = L.length +
        min ll.sampled_token_ranks.length
          (min ll.logprobs.length ll.logprob_token_ids.length) :=
  update_sample_logprobs_noconf hL hc hn hcl hne

theorem C2_witness :
    ∃ s' L', update_sample_logprobs c2s0 c2ll = some s' ∧ s'.logprobs = some L' ∧
      L'.length = ([] : List PositionRecord).length +
        min c2ll.sampled_token_ranks.length
          (min c2ll.logprobs.length c2ll.logprob_token_ids.length) :=
  @C2_amended_truncates c2s0 c2ll [] 0 1 rfl rfl rfl rfl (by decide)

/-! ### Claim C3 -/

/-- Claim C3: for a processor built with the confidence window enabled, after
every prefix of any sequence of sample-logprob updates the window length is at
most the configured capacity and `conf_grouped` equals the exact sum of the
window's current contents. -/
theorem C3_window_invariant {tok : Option (ℤ → String)} {req : EngineCoreRequest}
    {s0 s' : LogprobsProcessor} (h0 : from_new_request tok req = some s0)
    (hen : s0.conf_group_list.isSome = true)
    (updates : List LogprobsLists) (k : ℕ)
    (hrun : runUpdates s0 (List.take k updates) = some s') :
    s'.conf_group_size = s0.conf_group_size ∧
    ∀ gl, s'.conf_group_list = some gl →
      (gl.length : ℤ) ≤ s0.conf_group_size ∧ s'.conf_grouped = gl.sum := by
  obtain ⟨hinv', hsz⟩ :=
    runUpdates_inv _ _ _ hrun (from_new_request_confInv h0)
  refine ⟨hsz, fun gl hgl => ?_⟩
  obtain ⟨h1, h2⟩ := hinv' gl hgl
  exact ⟨by rw [← hsz]; exact h1, h2⟩

theorem C3_witness :
    c3sF.conf_group_size = c3s0.conf_group_size ∧
    ((([(0 : ℚ), 0]).length : ℤ) ≤ c3s0.conf_group_size ∧
      c3sF.conf_grouped = ([(0 : ℚ), 0]).sum) := by
  have h := @C3_window_invariant none c3req c3s0 c3sF rfl rfl c3us 3 rfl
  exact ⟨h.1, h.2 [0, 0] (by decide)⟩

/-! ### Claim C4 -/

/-- Claim C4: in `_make_logprob_dict`, when the distinguished token's id also
occurs at top-k position `j` among the zipped entries (and nowhere later), the
resulting dict entry for that id carries rank `j` — the later insertion wins
over the distinguished token's true rank.  Being a pure function of its
inputs, the outcome is the same for identical input. -/
theorem C4_duplicate_overwrite (lps : List ℚ) (tids : List ℤ) (dec : DecodedSeq)
    (rank n : ℤ) (j : ℕ) (hj0 : 0 < j)
    (hje : j < (makeLogprobDict lps tids dec rank n).length)
    (hdup : tids[j]? = tids[0]?)
    (hlast : ∀ i, j < i → tids[i]? ≠ tids[0]?) :
    ∃ a e, tids[0]? = some a ∧
      dictGet (makeLogprobDict lps tids dec rank n) a = some e ∧
      e.rank = (j : ℤ) := by
  rw [makeLogprobDict_eq] at hje ⊢
  set rks : List ℤ :=
    rank :: topkRanks (if n = -1 then (lps.length : ℤ) else n) with hrks
  obtain ⟨p, hp⟩ : ∃ p, (zipEntries tids lps rks dec)[j]? = some p :=
    ⟨_, List.getElem?_eq_getElem hje⟩
  obtain ⟨hkey, hrank⟩ := zipEntries_getElem? tids lps rks dec j p hp
  refine ⟨p.1, p.2, ?_, ?_, ?_⟩
  · rw [← hdup]
    exact hkey
  · apply dictGet_last _ j p.1 p.2
    · simpa using hp
    · intro i kv hij hkv
      obtain ⟨hkey2, -⟩ := zipEntries_getElem? tids lps rks dec i kv hkv
      intro heq
      apply hlast i hij
      rw [hkey2, heq, ← hdup, hkey]
  · obtain ⟨m, rfl⟩ := Nat.exists_eq_succ_of_ne_zero (Nat.pos_iff_ne_zero.mp hj0)
    rw [hrks, List.getElem?_cons_succ] at hrank
    rw [topkRanks_getElem?_eq hrank]
    push_cast
    ring

theorem C4_witness :
    ∃ e, dictGet (makeLogprobDict [-1, -2] [5, 5] DecodedSeq.nones 9 1) 5 =
        some e ∧ e.rank = 1 := by
  have hlast : ∀ i, 1 < i → ([5, 5] : List ℤ)[i]? ≠ ([5, 5] : List ℤ)[0]? := by
    intro i hi
    have hlen : ([5, 5] : List ℤ).length ≤ i := by
      simp only [List.length_cons, List.length_nil]
      omega
    rw [List.getElem?_eq_none hlen]
    simp
  obtain ⟨a, e, ha, hg, hr⟩ :=
    C4_duplicate_overwrite [-1, -2] [5, 5] DecodedSeq.nones 9 1 1 (by decide)
      (by decide) (by decide) hlast
  have haa : a = 5 := by
    simp only [List.getElem?_cons_zero, Option.some_inj] at ha
    exact ha.symm
  subst haa
  exact ⟨e, hg, by simpa using hr⟩

/-! ### Claim C5 -/

theorem check_conf_stop_none {s : LogprobsProcessor}
    (hgl : s.conf_group_list = none) : check_conf_stop s = false := by
  unfold check_conf_stop
  rw [hgl]

theorem check_conf_stop_eq {s : LogprobsProcessor} {gl : List ℚ} {t : ℚ}
    (hgl : s.conf_group_list = some gl) (ht : s.conf_threshold = some t) :
    check_conf_stop s =
      if gl.length = 0 then false
      else decide (s.conf_group_size ≤ (gl.length : ℤ)) &&
        decide (s.conf_grouped / (gl.length : ℚ) < t) := by
  unfold check_conf_stop
  rw [hgl, ht]

/-- Claim C5: the confidence-stop query returns `true` iff the window is live,
holds exactly its configured capacity of values, and the running sum divided
by the window length is strictly below the threshold; in every other case
(feature disabled, or window not yet full, regardless of the values) it
returns `false`.  The hypothesis is the construction invariant: a live window
never exceeds a positive capacity and always comes with a threshold. -/
theorem C5_stop_iff (s : LogprobsProcessor)
    (hwf : ∀ gl, s.conf_group_list = some gl →
      (gl.length : ℤ) ≤ s.conf_group_size ∧ 1 ≤ s.conf_group_size ∧
      s.conf_threshold.isSome = true) :
    check_conf_stop s = true ↔
      ∃ gl, s.conf_group_list = some gl ∧
        (gl.length : ℤ) = s.conf_group_size ∧
        ∃ t, s.conf_threshold = some t ∧
          s.conf_grouped / (gl.length : ℚ) < t := by
  rcases hgl : s.conf_group_list with _ | gl
  · rw [check_conf_stop_none hgl]
    simp [hgl]
  · obtain ⟨hle, hpos, hts⟩ := hwf gl hgl
    rcases ht : s.conf_threshold with _ | t
    · rw [ht] at hts
      simp at hts
    · rw [check_conf_stop_eq hgl ht]
      by_cases h0 : gl.length = 0
      · rw [if_pos h0]
        constructor
        · intro hf
          exact absurd hf (by simp)
        · rintro ⟨gl', hgl', hlen, t', ht', hlt⟩
          have hg : gl' = gl := (Option.some_inj.mp hgl').symm
          subst hg
          rw [h0] at hlen
          simp only [Nat.cast_zero] at hlen
          omega
      · rw [if_neg h0]
        simp only [Bool.and_eq_true, decide_eq_true_eq]
        constructor
        · rintro ⟨hge, hlt⟩
          exact ⟨gl, rfl, le_antisymm hle hge, t, rfl, hlt⟩
        · rintro ⟨gl', hgl', hlen, t', ht', hlt⟩
          have hg : gl' = gl := (Option.some_inj.mp hgl').symm
          subst hg
          have htt : t' = t := (Option.some_inj.mp ht').symm
          subst htt
          exact ⟨le_of_eq hlen.symm, hlt⟩

theorem C5_witness : check_conf_stop c5s = true := by
  have hwf : ∀ gl, c5s.conf_group_list = some gl →
      (gl.length : ℤ) ≤ c5s.conf_group_size ∧ 1 ≤ c5s.conf_group_size ∧
      c5s.conf_threshold.isSome = true := by
    intro gl hgl
    simp only [c5s, Option.some_inj] at hgl
    subst hgl
    exact ⟨by decide, by decide, rfl⟩
  exact (C5_stop_iff c5s hwf).mpr
    ⟨[2, 2], rfl, by decide, 17, rfl, by norm_num [c5s]⟩

/-! ### Claim C6 -/

/-- Claim C6: with sample logprobs enabled, after `n` single-token update
calls the `sample_log_probs` sequence has length `n` and the cumulative log
probability equals the exact sum of the sampled-token (first per-token)
logprobs supplied across those calls. -/
theorem C6_totals {s0 s' : LogprobsProcessor} {nl : ℤ}
    {updates : List LogprobsLists}
    (hL : s0.logprobs = some []) (hc : s0.cumulative_logprob = some 0)
    (hn : s0.num_logprobs = some nl)
    (hone : ∀ ll ∈ updates, ll.sampled_token_ranks.length = 1 ∧
      ll.logprobs.length = 1 ∧ ll.logprob_token_ids.length = 1)
    (hrun : runUpdates s0 updates = some s') :
    ∃ L, s'.logprobs = some L ∧ L.length = updates.length ∧
      s'.cumulative_logprob =
        some ((updates.map (fun ll => (ll.logprobs.headD []).headD 0)).sum) := by
  obtain ⟨L', g1, g2, g3⟩ :=
    runUpdates_one_token updates s0 s' [] 0 nl hL hc hn hone hrun
  exact ⟨L', by simpa using g1, g2, by simpa using g3⟩

theorem C6_witness :
    ∃ L, c6sF.logprobs = some L ∧ L.length = 2 ∧
      c6sF.cumulative_logprob = some (-3) := by
  obtain ⟨L, h1, h2, h3⟩ :=
    @C6_totals c6s0 c6sF 1 c6us rfl rfl rfl (by decide) rfl
  refine ⟨L, h1, ?_, ?_⟩
  · rw [h2]
    rfl
  · rw [h3]
    norm_num [c6us, c6ll1, c6ll2]

end VllmLogprobs
